import Mathlib

/-!
Verification development for the zep search-and-consistency engine.

The definitions below are shallow embeddings of the Go source:
  * `pkg/memorystore/postgres_search.go` (message search, JSONQuery compiler)
  * `pkg/store/postgres/document_search.go` (document search)
  * `pkg/store/postgres/userstore.go` (`UserStoreDAO.Update`)
Machine floats appear in the source only as either pgvector distances
(modelled over ℚ / ℝ) or the NaN sentinel (modelled by an explicit
`DistVal.nan` constructor).  Fallible Go code returns `Except`.
-/

namespace Zep

/-! ### JSON metadata documents

`map[string]interface{}` metadata documents are modelled as a recursive
sum-typed JSON value; an object is an association list of key/value pairs
(Go maps have unique keys, stated as a `Nodup` hypothesis where needed). -/

inductive JSONValue where
  | null
  | boolv (b : Bool)
  | num (n : Int)
  | str (s : String)
  | arr (xs : List JSONValue)
  | obj (kvs : List (String × JSONValue))

abbrev JSONObject := List (String × JSONValue)

/-- First-match association-list lookup (the Go map read `m[k]`). -/
def lookupJ (kvs : JSONObject) (k : String) : Option JSONValue :=
  match kvs with
  | [] => none
  | (k₁, v) :: rest => if k₁ == k then some v else lookupJ rest k

/-- Replace the value stored under key `k` (the Go map write `m[k] = v`). -/
def setKeyJ (kvs : JSONObject) (k : String) (v : JSONValue) : JSONObject :=
  match kvs with
  | [] => []
  | (k₁, v₁) :: rest =>
    if k₁ == k then (k, v) :: setKeyJ rest k v else (k₁, v₁) :: setKeyJ rest k v

/-- Modelled from the spec: the per-variant "empty/zero value" test used by the
deep-merge rule (§9: "model as a recursive sum-typed value ... so the merge
rule's 'non-empty' test is an explicit per-variant predicate").  The function
`mergeMetadata` that consumes it is not under `src/`. -/
def isEmptyValue : JSONValue → Bool
  | .null => true
  | .boolv b => !b
  | .num n => n == 0
  | .str s => s == ""
  | .arr xs => xs.isEmpty
  | .obj kvs => kvs.isEmpty

mutual

/-- Modelled from the spec: the value-level deep-merge rule of `mergeMetadata`
(not under `src/`), §4.4: "for every key in the update document, if the
existing document has a non-empty value for that key and the update provides
an empty/zero value, the existing value is kept unless `privileged` is true
...; for all other keys the update value replaces or is inserted.  Nested
objects merge recursively by the same rule." -/
def mergeValue (priv : Bool) (v u : JSONValue) : JSONValue :=
  if !priv && isEmptyValue u && !isEmptyValue v then v
  else
    match v, u with
    | .obj e, .obj up => .obj (mergeObj priv e up)
    | _, _ => u

/-- Modelled from the spec: the object-level deep merge of `mergeMetadata`
(not under `src/`): every key of the update document is merged into the
existing document; keys absent from the update are left untouched. -/
def mergeObj (priv : Bool) (e : JSONObject) : JSONObject → JSONObject
  | [] => e
  | (k, u) :: rest =>
    let e' := match lookupJ e k with
      | some v => setKeyJ e k (mergeValue priv v u)
      | none => e ++ [(k, u)]
    mergeObj priv e' rest

end

/-! ### The predicate tree and the bun where-clause model

`JSONQuery` mirrors the struct of `postgres_search.go`:
```
type JSONQuery struct {
    JSONPath string
    And      []*JSONQuery
    Or       []*JSONQuery
}
```
A bun `SelectQuery`'s WHERE state is a list of items, each an SQL separator
(`" AND "` / `" OR "`, written by `Where` / `WhereOr`) together with an
expression; `WhereGroup(sep, fn)` runs `fn` on an empty item list and appends
the result as a single parenthesised group with separator `sep`. -/

inductive JSONQuery where
  | mk (jsonPath : String) (andq : List JSONQuery) (orq : List JSONQuery)

def JSONQuery.jsonPath : JSONQuery → String
  | .mk p _ _ => p

def JSONQuery.andq : JSONQuery → List JSONQuery
  | .mk _ a _ => a

def JSONQuery.orq : JSONQuery → List JSONQuery
  | .mk _ _ o => o

/-- Values held in the `map[string]interface{}` metadata argument of a search
payload: the `"where"` key carries a predicate tree, the date keys carry
timestamps. -/
inductive MetaVal where
  | whereClause (jq : JSONQuery)
  | dateVal (t : Int)

def lookupMeta (m : List (String × MetaVal)) (k : String) : Option MetaVal :=
  match m with
  | [] => none
  | (k₁, v) :: rest => if k₁ == k then some v else lookupMeta rest k

/-- The atomic SQL conditions the message/document search queries emit. -/
inductive Cond where
  | jsonbPathExists (path : String)
  | sessionEq (sid : String)
  | notDeleted
  | createdGE (v : MetaVal)
  | createdLE (v : MetaVal)

inductive Sep where
  | sand
  | sor
  deriving DecidableEq

inductive WExpr where
  | atom (c : Cond)
  | group (items : List (Sep × WExpr))

abbrev WhereItems := List (Sep × WExpr)

/-- A database row joined from `message_embedding AS me` and `message AS m`
(only the columns the embedded queries touch).  `meta` is the
`jsonb_path_exists(m.metadata, path)` oracle of the row's metadata document. -/
structure Row where
  uuid : Nat
  sessionId : String
  createdAt : Int
  deletedAt : Option Int
  meta : String → Bool
  embedding : List ℚ

def evalCond (r : Row) : Cond → Bool
  | .jsonbPathExists p => r.meta p
  | .sessionEq sid => r.sessionId == sid
  | .notDeleted => r.deletedAt.isNone
  | .createdGE v =>
    match v with
    | .dateVal t => decide (t ≤ r.createdAt)
    | _ => false
  | .createdLE v =>
    match v with
    | .dateVal t => decide (r.createdAt ≤ t)
    | _ => false

mutual

/-- SQL semantics of one where expression against a row. -/
def evalExpr (r : Row) : WExpr → Bool
  | .atom c => evalCond r c
  | .group items => evalItems r items

/-- SQL semantics of a rendered where-item list: the items are joined
textually by their separators and `AND` binds tighter than `OR`, so the list
denotes a disjunction of maximal `AND`-runs.  The first item's separator is
never rendered.  An empty where list matches everything. -/
def evalItems (r : Row) : WhereItems → Bool
  | [] => true
  | (_, e) :: rest => evalItemsAux r false (evalExpr r e) rest

/-- `orAcc` is the value of the disjuncts already closed, `andAcc` the value
of the currently open `AND`-run. -/
def evalItemsAux (r : Row) (orAcc andAcc : Bool) : WhereItems → Bool
  | [] => orAcc || andAcc
  | (.sand, e) :: rest => evalItemsAux r orAcc (andAcc && evalExpr r e) rest
  | (.sor, e) :: rest => evalItemsAux r (orAcc || andAcc) (evalExpr r e) rest

end

/-- `strings.ReplaceAll(jq.JSONPath, "'", "\"")`: the quote normalisation in
`parseJSONQuery`, mapping every single quote U+0027 to a double quote
U+0022 (the pattern is a single character, so ReplaceAll is a character
map). -/
def normalizeJSONPath (p : String) : String :=
  String.mk (p.data.map (fun c => if c = Char.ofNat 39 then Char.ofNat 34 else c))

mutual

/-- `parseJSONQuery` of `postgres_search.go`: the leaf condition is added with
`WhereOr` when `isOr` and `Where` otherwise; a non-empty `And` (resp. `Or`)
child list is compiled into a `WhereGroup(" AND ", ...)` whose members are
each compiled with `isOr = false` (resp. `isOr = true`). -/
def parseJSONQuery (qb : WhereItems) (jq : JSONQuery) (isOr : Bool) : WhereItems :=
  match jq with
  | .mk path andq orq =>
    let qb := if path ≠ "" then
        qb ++ [((if isOr then Sep.sor else Sep.sand),
                 .atom (.jsonbPathExists (normalizeJSONPath path)))]
      else qb
    let qb := if andq.isEmpty then qb
      else qb ++ [(Sep.sand, .group (parseJSONList [] andq false))]
    let qb := if orq.isEmpty then qb
      else qb ++ [(Sep.sand, .group (parseJSONList [] orq true))]
    qb

/-- The `for _, subQuery := range ...` fold inside each `WhereGroup` callback
(the callback starts from an empty sub-builder). -/
def parseJSONList (qb : WhereItems) (l : List JSONQuery) (isOr : Bool) : WhereItems :=
  match l with
  | [] => qb
  | j :: rest => parseJSONList (parseJSONQuery qb j isOr) rest isOr

end

/-! ### Message search (`pkg/memorystore/postgres_search.go`)

External collaborators are abstracted as in §1 of the spec: the embedding
provider is a function `embedFn : String → List ℚ` (one fixed-length vector
per text), and external calls are recorded in an effect trace. -/

def defaultSearchLimit : Int := 10

inductive Effect where
  | embedCall
  | dbExec
  deriving DecidableEq

inductive SErr where
  | nilQuery
  | emptyQuery
  | metadataFilterError
  deriving DecidableEq

inductive QOrder where
  | distAsc
  | createdDesc
  deriving DecidableEq

structure MemorySearchPayload where
  text : String
  metadata : List (String × MetaVal)

/-- The observable state of the bun `SelectQuery` the message search builds:
the query vector bound into the `embedding <#> ? AS dist` column (if any),
the accumulated WHERE items, the ORDER BY clause and the LIMIT. -/
structure MsgQuery where
  distQv : Option (List ℚ)
  whereItems : WhereItems
  order : Option QOrder
  limit : Int

def addWhereCond (q : MsgQuery) (c : Cond) : MsgQuery :=
  { q with whereItems := q.whereItems ++ [(Sep.sand, .atom c)] }

/-- `buildMessagesSelectQuery`: selects the message columns and, when the
query text is non-empty, calls the embedding provider once
(`addMessagesVectorColumn`) and adds the `embedding <#> ? AS dist` column. -/
def buildMessagesSelectQuery (embedFn : String → List ℚ)
    (query : MemorySearchPayload) : List Effect × MsgQuery :=
  let base : MsgQuery := { distQv := none, whereItems := [], order := none, limit := 0 }
  if query.text ≠ "" then
    ([Effect.embedCall], { base with distQv := some (embedFn query.text) })
  else
    ([], base)

/-- `addMessageDateFilters`: `start_date` and `end_date` keys add
`m.created_at >= ?` / `m.created_at <= ?` conditions bound to the raw map
value. -/
def addMessageDateFilters (items : WhereItems)
    (m : List (String × MetaVal)) : WhereItems :=
  let items := match lookupMeta m "start_date" with
    | some v => items ++ [(Sep.sand, .atom (.createdGE v))]
    | none => items
  match lookupMeta m "end_date" with
  | some v => items ++ [(Sep.sand, .atom (.createdLE v))]
  | none => items

/-- `applyMessagesMetadataFilter`: the `"where"` value is marshalled and
unmarshalled into a `JSONQuery` (identity on a well-formed tree; a
non-object value fails to unmarshal) and compiled with
`parseJSONQuery(qb, &jq, false)`; then the date filters are added. -/
def applyMessagesMetadataFilter (q : MsgQuery)
    (metadata : List (String × MetaVal)) : Except SErr MsgQuery :=
  match lookupMeta metadata "where" with
  | some (.whereClause jq) =>
    let items := parseJSONQuery q.whereItems jq false
    .ok { q with whereItems := addMessageDateFilters items metadata }
  | some (.dateVal _) => .error SErr.metadataFilterError
  | none => .ok { q with whereItems := addMessageDateFilters q.whereItems metadata }

/-- `addMessagesSortQuery`: `dist ASC` for text queries, otherwise
`m.created_at DESC`. -/
def addMessagesSortQuery (searchText : String) (q : MsgQuery) : MsgQuery :=
  if searchText ≠ "" then { q with order := some QOrder.distAsc }
  else { q with order := some QOrder.createdDesc }

/-- `searchMessages` up to (and excluding) `executeMessagesSearchScan`: the
nil-query guard, the empty-query guard, query building, the metadata filter,
the session and soft-delete filters, sort, and the default-limit
substitution.  Returns the trace of external calls made so far and the built
query. -/
def searchMessagesQuery (embedFn : String → List ℚ)
    (query? : Option MemorySearchPayload) (sessionID : String) (limit : Int) :
    List Effect × Except SErr MsgQuery :=
  match query? with
  | none => ([], .error SErr.nilQuery)
  | some query =>
    if query.text == "" && query.metadata.isEmpty then
      ([], .error SErr.emptyQuery)
    else
      let built := buildMessagesSelectQuery embedFn query
      let tr := built.1
      let filtered : Except SErr MsgQuery :=
        if query.metadata.isEmpty then .ok built.2
        else applyMessagesMetadataFilter built.2 query.metadata
      match filtered with
      | .error e => (tr, .error e)
      | .ok dbQuery =>
        let dbQuery := addWhereCond dbQuery (.sessionEq sessionID)
        let dbQuery := addWhereCond dbQuery .notDeleted
        let dbQuery := addMessagesSortQuery query.text dbQuery
        let limit := if limit = 0 then defaultSearchLimit else limit
        (tr, .ok { dbQuery with limit := limit })

/-- pgvector `<#>`: the negative inner product, the `dist` column value of a
message row. -/
def dotQ (a b : List ℚ) : ℚ := (List.zipWith (fun x y => x * y) a b).sum

def rowDist (qv : List ℚ) (r : Row) : ℚ := -(dotQ r.embedding qv)

def msgRowLe (q : MsgQuery) : QOrder → Row → Row → Bool
  | .distAsc, r₁, r₂ =>
    decide (rowDist (q.distQv.getD []) r₁ ≤ rowDist (q.distQv.getD []) r₂)
  | .createdDesc, r₁, r₂ => decide (r₂.createdAt ≤ r₁.createdAt)

/-- Execution of a built message query against a table: rows passing the
WHERE items, ordered by the ORDER BY clause, cut to LIMIT (bun emits a LIMIT
clause only for a positive limit). -/
def execMessages (table : List Row) (q : MsgQuery) : List Row :=
  let passed := table.filter (fun r => evalItems r q.whereItems)
  let sorted := match q.order with
    | none => passed
    | some o => passed.mergeSort (fun r₁ r₂ => msgRowLe q o r₁ r₂)
  if 0 < q.limit then sorted.take q.limit.toNat else sorted

/-- `searchMessages` end to end: build the query, then execute the scan
(one store round trip, recorded as `dbExec`). -/
def searchMessages (embedFn : String → List ℚ) (table : List Row)
    (query? : Option MemorySearchPayload) (sessionID : String) (limit : Int) :
    List Effect × Except SErr (MsgQuery × List Row) :=
  match searchMessagesQuery embedFn query? sessionID limit with
  | (tr, .error e) => (tr, .error e)
  | (tr, .ok q) => (tr ++ [Effect.dbExec], .ok (q, execMessages table q))

/-- The `Dist` field of a scanned `MemorySearchResult`: a float that is
either NaN (the metadata-only-match sentinel) or a real distance. -/
inductive DistVal where
  | nan
  | val (q : ℚ)
  deriving DecidableEq

def DistVal.isNaN : DistVal → Bool
  | .nan => true
  | .val _ => false

structure MemorySearchResult where
  messageUuid : Nat
  dist : DistVal
  deriving DecidableEq

/-- `filterValidMessageSearchResults`: keep a result iff its distance is not
NaN or the search carried a metadata filter. -/
def filterValidMessageSearchResults (results : List MemorySearchResult)
    (metadata : List (String × MetaVal)) : List MemorySearchResult :=
  results.filter (fun result => !result.dist.isNaN || decide (0 < metadata.length))

/-! ### pgvector metric semantics over ℝ

pgvector defines `<#>` as the negative inner product and `<=>` as the cosine
distance `1 - cos_similarity(a, b)`. -/

def dotR (a b : List ℝ) : ℝ := (List.zipWith (fun x y => x * y) a b).sum

noncomputable def l2normR (a : List ℝ) : ℝ := Real.sqrt (dotR a a)

noncomputable def cosineSimilarity (a b : List ℝ) : ℝ :=
  dotR a b / (l2normR a * l2normR b)

/-- pgvector `<=>`. -/
noncomputable def cosineDistance (a b : List ℝ) : ℝ := 1 - cosineSimilarity a b

/-- pgvector `<#>` over ℝ. -/
def negInnerProductR (a b : List ℝ) : ℝ := -(dotR a b)

/-! ### Document search (`pkg/store/postgres/document_search.go`) -/

def DefaultDocumentSearchLimit : Int := 20

structure DocumentSearchPayload where
  text : String
  metadata : List (String × MetaVal)

inductive DocErr where
  | metadataFilterError
  deriving DecidableEq

/-- The fields of `documentSearchOperation` that `buildQuery` reads. -/
structure DocumentSearchOperation where
  searchPayload : DocumentSearchPayload
  limit : Int
  withMMR : Bool

/-- `newDocumentSearchOperation`: substitutes the default limit for any
requested limit `<= 0`. -/
def newDocumentSearchOperation (searchPayload : DocumentSearchPayload)
    (limit : Int) (withMMR : Bool) : DocumentSearchOperation :=
  let limit := if limit ≤ 0 then DefaultDocumentSearchLimit else limit
  { searchPayload := searchPayload, limit := limit, withMMR := withMMR }

/-- The observable state of the bun `SelectQuery` that `buildQuery` builds.
`distQv` is the query vector bound into the `1 - (embedding <=> ?) AS dist`
column (if any). -/
structure DocQuery where
  distQv : Option (List ℝ)
  whereItems : WhereItems
  order : Option QOrder
  limit : Int

/-- `applyDocsMetadataFilter`: like the message variant but without date
filters.  The `postgres` package's `parseJSONQuery` is not under `src/`; it
is shared here with the `memorystore` compiler, which matches the identical
`JSONQuery` shape both consume. -/
def applyDocsMetadataFilter (items : WhereItems)
    (metadata : List (String × MetaVal)) : Except DocErr WhereItems :=
  match lookupMeta metadata "where" with
  | some (.whereClause jq) => .ok (parseJSONQuery items jq false)
  | some (.dateVal _) => .error DocErr.metadataFilterError
  | none => .ok items

/-- `documentSearchOperation.buildQuery`: adds the
`1 - (embedding <=> ?) AS dist` column for text queries, applies the
metadata filter, computes the MMR over-fetch limit into a local variable but
passes `dso.limit` to `query.Limit`, and orders by `dist ASC` only for text
queries. -/
def buildQuery (embedFn : String → List ℝ) (dso : DocumentSearchOperation) :
    Except DocErr DocQuery :=
  let distQv := if dso.searchPayload.text ≠ "" then
      some (embedFn dso.searchPayload.text)
    else none
  match (if dso.searchPayload.metadata.isEmpty then .ok ([] : WhereItems)
      else applyDocsMetadataFilter [] dso.searchPayload.metadata) with
  | .error e => .error e
  | .ok items =>
    -- If we're using MMR, we need to add a limit of 2x the requested limit
    -- to allow for the MMR algorithm to rerank and filter out results.
    let limit := dso.limit
    let _limit := if dso.withMMR then limit * 2 else limit
    -- the source then executes `query = query.Limit(dso.limit)`
    let order := if dso.searchPayload.text ≠ "" then some QOrder.distAsc else none
    .ok { distQv := distQv, whereItems := items, order := order, limit := dso.limit }

/-- The value the document `dist` column computes for a row embedding, per
the column expression `1 - (embedding <=> ?)` chosen in `buildQuery`. -/
noncomputable def docQueryDist (q : DocQuery) (emb : List ℝ) : Option ℝ :=
  q.distQv.map (fun qv => 1 - cosineDistance emb qv)

/-- The value the message `dist` column computes for a row, per the column
expression `embedding <#> ?` chosen in `addMessagesVectorColumn`. -/
def msgQueryDist (q : MsgQuery) (r : Row) : Option ℚ :=
  q.distQv.map (fun qv => rowDist qv r)

/-- Execution of a built document query against a table of rows.  Modelled
from the spec: the collection tables' bun schema (not under `src/`) marks
rows soft-deletable and reads exclude them by default ("Soft delete: marking
a row as deleted without physical removal; excluded from all reads by
default").  The ORDER BY stage is not modelled here (no claim about
document-result order at the row level); rows keep table order. -/
def execDocuments (table : List Row) (q : DocQuery) : List Row :=
  let passed := table.filter (fun r => evalItems r q.whereItems && r.deletedAt.isNone)
  if 0 < q.limit then passed.take q.limit.toNat else passed

/-- A predicate tree compiled standalone, as the top-level call
`parseJSONQuery(qb, &jq, false)` does on a fresh builder. -/
def compileTree (jq : JSONQuery) : WhereItems := parseJSONQuery [] jq false

/-- Whether a row matches a compiled predicate tree. -/
def matchesTree (r : Row) (jq : JSONQuery) : Bool := evalItems r (compileTree jq)

/-- All separators of a where-item list are `" AND "`. -/
def itemsAllAnd (items : WhereItems) : Prop := ∀ it ∈ items, it.1 = Sep.sand

/-! ### `UserStoreDAO.Update` (`pkg/store/postgres/userstore.go`)

The store's fallible calls are abstracted by three booleans (advisory-lock
acquisition, metadata merge, row update); the calls actually issued are
recorded in order.  `mergeMetadata`'s internals are not under `src/`; per
§4.4 it is one `ReadCurrent → DeepMerge` step inside the locked section,
recorded as `readCurrent` then `mergeEv`. -/

inductive UEvent where
  | lockAcquire
  | lockRelease
  | readCurrent
  | mergeEv
  | writeEv
  deriving DecidableEq

inductive UErr where
  | emptyUserID
  | unavailable
  | mergeFailed
  | writeFailed
  deriving DecidableEq

/-- `UserStoreDAO.Update`: an empty `UserID` is rejected; a nil metadata map
skips the lock and writes directly; otherwise the advisory lock is acquired,
`releaseAdvisoryLock` is deferred (so it runs on every exit path after a
successful acquisition), the metadata is read and merged, and the row is
written. -/
def userUpdate (userID : String) (metadata : Option JSONObject)
    (lockOK mergeOK writeOK : Bool) : List UEvent × Except UErr Unit :=
  if userID == "" then
    ([], .error UErr.emptyUserID)
  else
    match metadata with
    | none =>
      -- if metadata is null, we can keep this a cheap operation
      ([UEvent.writeEv], if writeOK then .ok () else .error UErr.writeFailed)
    | some _ =>
      if !lockOK then
        ([UEvent.lockAcquire], .error UErr.unavailable)
      else if !mergeOK then
        ([UEvent.lockAcquire, UEvent.readCurrent, UEvent.mergeEv,
          UEvent.lockRelease], .error UErr.mergeFailed)
      else
        ([UEvent.lockAcquire, UEvent.readCurrent, UEvent.mergeEv,
          UEvent.writeEv, UEvent.lockRelease],
         if writeOK then .ok () else .error UErr.writeFailed)

/-! ## Theorems -/

/-- C1: the document fetch requests `dso.limit` rows whether or not MMR is
requested — the doubled over-fetch limit is computed but never passed to
`query.Limit`, contradicting the source's own comment.  Evaluated at the
failing input `limit = 5, withMMR = true`. -/
theorem searchLimitNotDoubledUnderMMR :
    (buildQuery (fun _ => [(1 : ℝ)])
        (newDocumentSearchOperation ⟨"q", []⟩ 5 true)).map DocQuery.limit = .ok 5
    ∧ (buildQuery (fun _ => [(1 : ℝ)])
        (newDocumentSearchOperation ⟨"q", []⟩ 5 false)).map DocQuery.limit = .ok 5
    ∧ (5 : Int) ≠ 2 * 5 := by
  refine ⟨rfl, rfl, by decide⟩

/-- C2: the message `dist` column is the negative inner product as claimed,
but the document `dist` column `1 - (embedding <=> ?)` evaluates to
`1 - cosine_distance = cosine_similarity`, not to the cosine distance:
at stored embedding `[1, 0]` and query vector `[0, 1]` the column yields `0`
while the cosine distance is `1`. -/
theorem documentDistanceIsSimilarityNotDistance :
    (∀ (qv : List ℚ) (r : Row),
      msgQueryDist { distQv := some qv, whereItems := [], order := none, limit := 0 } r
        = some (-(dotQ r.embedding qv)))
    ∧ (buildQuery (fun _ => [(0 : ℝ), 1])
        (newDocumentSearchOperation ⟨"q", []⟩ 20 false)).map
          (fun q => docQueryDist q [1, 0]) = .ok (some 0)
    ∧ cosineDistance [1, 0] [0, 1] = 1 := by
  have hcos : cosineDistance [1, 0] [0, 1] = 1 := by
    simp [cosineDistance, cosineSimilarity, dotR]
  refine ⟨fun qv r => rfl, ?_, hcos⟩
  have : (buildQuery (fun _ => [(0 : ℝ), 1])
      (newDocumentSearchOperation ⟨"q", []⟩ 20 false)).map
        (fun q => docQueryDist q [1, 0])
      = .ok (some (1 - cosineDistance [1, 0] [0, 1])) := rfl
  rw [this, hcos]
  norm_num

/-- C4 counterexample: an update whose metadata document is present but
empty (`some []`, the decoded form of `"metadata": {}`) acquires the
advisory lock — only a nil metadata document takes the direct-write path. -/
theorem emptyMapUpdateAcquiresLock :
    UEvent.lockAcquire ∈ (userUpdate "u1" (some []) true true true).1 := by
  decide

/-- C4 (amended): only a nil/absent metadata document skips the advisory
lock and writes directly; any present metadata document (even empty) takes
the locked read-merge-write path, and once the lock is acquired it is
released on every exit path, including merge and write failure; a failed
acquisition aborts before any write. -/
theorem updateLockDiscipline (userID : String) (h : userID ≠ "") :
    (∀ lockOK mergeOK writeOK,
      (userUpdate userID none lockOK mergeOK writeOK).1 = [UEvent.writeEv])
    ∧ (∀ md mergeOK writeOK,
      (userUpdate userID (some md) true mergeOK writeOK).1 =
        [UEvent.lockAcquire, UEvent.readCurrent, UEvent.mergeEv]
          ++ (if mergeOK then [UEvent.writeEv] else []) ++ [UEvent.lockRelease])
    ∧ (∀ md mergeOK writeOK,
      (userUpdate userID (some md) false mergeOK writeOK).1 = [UEvent.lockAcquire]
        ∧ (userUpdate userID (some md) false mergeOK writeOK).2
            = .error UErr.unavailable) := by
  have hbeq : (userID == "") = false := by
    simp [h]
  refine ⟨?_, ?_, ?_⟩
  · intro lockOK mergeOK writeOK
    simp [userUpdate, hbeq]
  · intro md mergeOK writeOK
    cases mergeOK <;> simp [userUpdate, hbeq]
  · intro md mergeOK writeOK
    refine ⟨?_, ?_⟩ <;> simp [userUpdate, hbeq]

theorem updateLockDisciplineWitness :
    (userUpdate "u1" (some [("k", JSONValue.num 1)]) true false true).1
      = [UEvent.lockAcquire, UEvent.readCurrent, UEvent.mergeEv, UEvent.lockRelease] := by
  have h := (updateLockDiscipline "u1" (by decide)).2.1 [("k", JSONValue.num 1)] false true
  simpa using h

/-- Helper: unfolding of `searchMessagesQuery` at a non-nil payload. -/
theorem searchMessagesQuery_some (f : String → List ℚ)
    (payload : MemorySearchPayload) (sid : String) (lim : Int) :
    searchMessagesQuery f (some payload) sid lim =
      if payload.text == "" && payload.metadata.isEmpty then
        ([], .error SErr.emptyQuery)
      else
        match (if payload.metadata.isEmpty then
            Except.ok (buildMessagesSelectQuery f payload).2
          else applyMessagesMetadataFilter (buildMessagesSelectQuery f payload).2
            payload.metadata) with
        | .error e => ((buildMessagesSelectQuery f payload).1, .error e)
        | .ok dbQuery =>
          ((buildMessagesSelectQuery f payload).1,
           .ok { addMessagesSortQuery payload.text
                  (addWhereCond (addWhereCond dbQuery (.sessionEq sid)) .notDeleted) with
                 limit := if lim = 0 then defaultSearchLimit else lim }) := rfl

/-- Helper: the metadata filter only ever fails with
`metadataFilterError`. -/
theorem applyMessagesMetadataFilter_error (q : MsgQuery)
    (m : List (String × MetaVal)) (e : SErr)
    (h : applyMessagesMetadataFilter q m = .error e) : e = SErr.metadataFilterError := by
  unfold applyMessagesMetadataFilter at h
  rcases hw : lookupMeta m "where" with _ | v
  · rw [hw] at h
    simp at h
  · rw [hw] at h
    cases v with
    | whereClause jq => simp at h
    | dateVal t =>
      simp at h
      exact h.symm

/-- C5: a message search whose query text is empty and metadata map is empty
fails with the empty-query error before any provider or store call (its
effect trace is empty); when text or metadata is present, that rejection
does not occur. -/
theorem emptySearchRejectedBeforeIO :
    (∀ (f : String → List ℚ) (table : List Row) (sid : String) (lim : Int),
      searchMessages f table (some ⟨"", []⟩) sid lim = ([], .error SErr.emptyQuery))
    ∧ (∀ (f : String → List ℚ) (table : List Row)
        (payload : MemorySearchPayload) (sid : String) (lim : Int),
        payload.text ≠ "" ∨ payload.metadata ≠ [] →
        (searchMessages f table (some payload) sid lim).2 ≠ .error SErr.emptyQuery) := by
  constructor
  · intro f table sid lim
    rfl
  · intro f table payload sid lim h
    have hguard : (payload.text == "" && payload.metadata.isEmpty) = false := by
      rcases h with h | h
      · simp [h]
      · simp [List.isEmpty_iff, h]
    have hq : (searchMessagesQuery f (some payload) sid lim).2 ≠ .error SErr.emptyQuery := by
      rw [searchMessagesQuery_some, hguard]
      simp only [Bool.false_eq_true, if_false]
      rcases hf : (if payload.metadata.isEmpty then
          Except.ok (buildMessagesSelectQuery f payload).2
        else applyMessagesMetadataFilter (buildMessagesSelectQuery f payload).2
          payload.metadata) with e | q
      · have he : e = SErr.metadataFilterError := by
          rcases hm : payload.metadata.isEmpty with _ | _
          · rw [hm] at hf
            simp only [Bool.false_eq_true, if_false] at hf
            exact applyMessagesMetadataFilter_error _ _ _ hf
          · rw [hm] at hf
            simp at hf
        simp [he]
      · simp
    unfold searchMessages
    rcases hres : searchMessagesQuery f (some payload) sid lim with ⟨tr, res⟩
    rw [hres] at hq
    cases res with
    | error e =>
      simp only at hq ⊢
      simpa using hq
    | ok q => simp

theorem emptySearchRejectedWitness :
    (searchMessages (fun _ => []) [] (some ⟨"hello", []⟩) "s" 3).2
      ≠ .error SErr.emptyQuery :=
  emptySearchRejectedBeforeIO.2 (fun _ => []) [] ⟨"hello", []⟩ "s" 3 (Or.inl (by decide))

/-- C7: a result row with NaN distance is kept by
`filterValidMessageSearchResults` iff the search carried a metadata filter,
and with no metadata filter every surviving row has a non-NaN distance. -/
theorem nanFilteringMatchesMetadataPresence (results : List MemorySearchResult)
    (metadata : List (String × MetaVal)) :
    (metadata = [] →
      ∀ r ∈ filterValidMessageSearchResults results metadata, r.dist ≠ DistVal.nan)
    ∧ (∀ r : MemorySearchResult, r.dist = DistVal.nan →
        (r ∈ filterValidMessageSearchResults results metadata
          ↔ r ∈ results ∧ metadata ≠ [])) := by
  constructor
  · rintro rfl r hr
    simp only [filterValidMessageSearchResults, List.mem_filter] at hr
    intro hd
    rw [hd] at hr
    simp [DistVal.isNaN] at hr
  · intro r hd
    constructor
    · intro hr
      simp only [filterValidMessageSearchResults, List.mem_filter] at hr
      refine ⟨hr.1, ?_⟩
      have h2 := hr.2
      rw [hd] at h2
      simp [DistVal.isNaN] at h2
      intro hempty
      rw [hempty] at h2
      simp at h2
    · rintro ⟨hr, hne⟩
      simp only [filterValidMessageSearchResults, List.mem_filter]
      refine ⟨hr, ?_⟩
      have hlen : 0 < metadata.length := by
        cases metadata with
        | nil => exact absurd rfl hne
        | cons a l => simp
      simp [hlen]

theorem nanFilteringWitness :
    (⟨7, DistVal.nan⟩ : MemorySearchResult) ∈
      filterValidMessageSearchResults [⟨7, DistVal.nan⟩] [("start_date", MetaVal.dateVal 0)] :=
  ((nanFilteringMatchesMetadataPresence [⟨7, DistVal.nan⟩]
      [("start_date", MetaVal.dateVal 0)]).2 ⟨7, DistVal.nan⟩ rfl).mpr
    ⟨by simp, by simp⟩

/-- C10: a message search called with limit `0` gets `defaultSearchLimit`
(10) and a negative limit is passed through unchanged, while the document
search constructor substitutes `DefaultDocumentSearchLimit` (20) for any
limit `<= 0`. -/
theorem defaultLimitSubstitution :
    (∀ (f : String → List ℚ) (payload : MemorySearchPayload) (sid : String)
        (lim : Int) (tr : List Effect) (q : MsgQuery),
      searchMessagesQuery f (some payload) sid lim = (tr, .ok q) →
      q.limit = if lim = 0 then defaultSearchLimit else lim)
    ∧ (∀ (payload : DocumentSearchPayload) (lim : Int) (mmr : Bool),
      (newDocumentSearchOperation payload lim mmr).limit =
        if lim ≤ 0 then DefaultDocumentSearchLimit else lim) := by
  constructor
  · intro f payload sid lim tr q h
    rw [searchMessagesQuery_some] at h
    rcases hguard : (payload.text == "" && payload.metadata.isEmpty) with _ | _
    · rw [hguard] at h
      simp only [Bool.false_eq_true, if_false] at h
      rcases hf : (if payload.metadata.isEmpty then
            Except.ok (buildMessagesSelectQuery f payload).2
          else applyMessagesMetadataFilter (buildMessagesSelectQuery f payload).2
            payload.metadata)
        with e | q₀
      · rw [hf] at h
        simp at h
      · rw [hf] at h
        simp only [Prod.mk.injEq, Except.ok.injEq] at h
        rw [← h.2]
    · rw [hguard] at h
      simp at h
  · intro payload lim mmr
    rfl

theorem defaultLimitWitness :
    ({ distQv := some ([] : List ℚ),
       whereItems := [(Sep.sand, .atom (.sessionEq "s")), (Sep.sand, .atom .notDeleted)],
       order := some QOrder.distAsc, limit := 10 } : MsgQuery).limit
      = if (0 : Int) = 0 then defaultSearchLimit else 0 :=
  defaultLimitSubstitution.1 (fun _ => []) ⟨"hi", []⟩ "s" 0 [Effect.embedCall] _ rfl

/-! ### C3: deep-merge lemmas -/

theorem lookupJ_eq_none_of_not_mem (kvs : JSONObject) (k : String)
    (h : k ∉ kvs.map Prod.fst) : lookupJ kvs k = none := by
  induction kvs with
  | nil => rfl
  | cons kv rest ih =>
    obtain ⟨k₁, v₁⟩ := kv
    simp only [List.map_cons, List.mem_cons] at h
    push_neg at h
    have hne : (k₁ == k) = false := beq_eq_false_iff_ne.mpr (Ne.symm h.1)
    simp only [lookupJ, hne, Bool.false_eq_true, if_false]
    exact ih h.2

theorem lookupJ_setKeyJ_of_ne (e : JSONObject) {k keyW : String} (h : keyW ≠ k)
    (v : JSONValue) : lookupJ (setKeyJ e keyW v) k = lookupJ e k := by
  have hW : (keyW == k) = false := beq_eq_false_iff_ne.mpr h
  induction e with
  | nil => rfl
  | cons kv rest ih =>
    obtain ⟨k₁, v₁⟩ := kv
    simp only [setKeyJ]
    rcases hb : (k₁ == keyW) with _ | _
    · rcases hbk : (k₁ == k) with _ | _ <;>
        simp [lookupJ, hbk, ih]
    · have hk₁ : k₁ = keyW := by simpa using hb
      have hbk : (k₁ == k) = false := beq_eq_false_iff_ne.mpr (hk₁ ▸ h)
      simp [lookupJ, hW, hbk, ih]

theorem lookupJ_append_of_ne (e : JSONObject) {k keyW : String} (h : keyW ≠ k)
    (u : JSONValue) : lookupJ (e ++ [(keyW, u)]) k = lookupJ e k := by
  induction e with
  | nil =>
    have hne : (keyW == k) = false := beq_eq_false_iff_ne.mpr h
    simp [lookupJ, hne]
  | cons kv rest ih =>
    obtain ⟨k₁, v₁⟩ := kv
    rcases hbk : (k₁ == k) with _ | _ <;>
      simp [lookupJ, hbk, ih]

theorem lookupJ_setKeyJ_self (e : JSONObject) {k : String} {v₀ : JSONValue}
    (h : lookupJ e k = some v₀) (v : JSONValue) :
    lookupJ (setKeyJ e k v) k = some v := by
  induction e with
  | nil => simp [lookupJ] at h
  | cons kv rest ih =>
    obtain ⟨k₁, v₁⟩ := kv
    simp only [setKeyJ]
    rcases hb : (k₁ == k) with _ | _
    · simp only [lookupJ, hb, Bool.false_eq_true, if_false] at h
      simp [lookupJ, hb, ih h]
    · simp [lookupJ]

theorem mergeObj_lookup_of_none (up : JSONObject) (k : String) :
    ∀ (e : JSONObject) (priv : Bool), lookupJ up k = none →
      lookupJ (mergeObj priv e up) k = lookupJ e k := by
  induction up with
  | nil =>
    intro e priv _
    simp [mergeObj]
  | cons kv rest ih =>
    intro e priv h
    obtain ⟨k₁, u₁⟩ := kv
    have hne : (k₁ == k) = false := by
      rcases hb : (k₁ == k) with _ | _
      · rfl
      · simp [lookupJ, hb] at h
    have hrest : lookupJ rest k = none := by
      simpa [lookupJ, hne] using h
    have hne' : k₁ ≠ k := by simpa using hne
    simp only [mergeObj]
    rcases he : lookupJ e k₁ with _ | v
    · rw [ih _ priv hrest, lookupJ_append_of_ne e hne' u₁]
    · rw [ih _ priv hrest, lookupJ_setKeyJ_of_ne e hne' _]

theorem mergeObj_preserves_nonempty (up : JSONObject) (k : String) :
    ∀ (e : JSONObject) (v u : JSONValue), (up.map Prod.fst).Nodup →
      lookupJ e k = some v → isEmptyValue v = false →
      lookupJ up k = some u → isEmptyValue u = true →
      lookupJ (mergeObj false e up) k = some v := by
  induction up with
  | nil =>
    intro e v u _ _ _ hu _
    simp [lookupJ] at hu
  | cons kv rest ih =>
    intro e v u hnd hv hev hu heu
    obtain ⟨k₁, u₁⟩ := kv
    simp only [List.map_cons, List.nodup_cons] at hnd
    by_cases hkk : k₁ = k
    · have hbe : (k₁ == k) = true := by simp [hkk]
      have hu₁ : u₁ = u := by simpa [lookupJ, hbe] using hu
      have hrest : lookupJ rest k = none :=
        lookupJ_eq_none_of_not_mem rest k (hkk ▸ hnd.1)
      simp only [mergeObj, hkk, hv]
      have hmv : mergeValue false v u₁ = v := by
        rw [hu₁]
        unfold mergeValue
        simp [heu, hev]
      rw [hmv, mergeObj_lookup_of_none rest k _ false hrest,
        lookupJ_setKeyJ_self e hv v]
    · have hbe : (k₁ == k) = false := by simp [hkk]
      have hu' : lookupJ rest k = some u := by simpa [lookupJ, hbe] using hu
      simp only [mergeObj]
      rcases he : lookupJ e k₁ with _ | v₁
      · refine ih _ v u hnd.2 ?_ hev hu' heu
        rw [lookupJ_append_of_ne e hkk u₁]
        exact hv
      · refine ih _ v u hnd.2 ?_ hev hu' heu
        rw [lookupJ_setKeyJ_of_ne e hkk _]
        exact hv

/-- C3 (spec-modelled `mergeMetadata`): under a non-privileged deep merge,
keys absent from the update keep their existing values, a key updated with
an empty/zero value does not erase a prior non-empty value, and the spec's
worked example merges `{"a":null,"c":3}` into `{"a":1,"b":2}` to give
`{"a":1,"b":2,"c":3}`. -/
theorem metadataMergePreservesValues :
    (∀ (e up : JSONObject) (priv : Bool) (k : String), lookupJ up k = none →
        lookupJ (mergeObj priv e up) k = lookupJ e k)
    ∧ (∀ (e up : JSONObject) (k : String) (v u : JSONValue),
        (up.map Prod.fst).Nodup → lookupJ e k = some v → isEmptyValue v = false →
        lookupJ up k = some u → isEmptyValue u = true →
        lookupJ (mergeObj false e up) k = some v)
    ∧ mergeObj false [("a", .num 1), ("b", .num 2)] [("a", .null), ("c", .num 3)]
        = [("a", .num 1), ("b", .num 2), ("c", .num 3)] :=
  ⟨fun e up priv k h => mergeObj_lookup_of_none up k e priv h,
   fun e up k v u hnd hv hev hu heu =>
     mergeObj_preserves_nonempty up k e v u hnd hv hev hu heu,
   rfl⟩

theorem metadataMergeWitness :
    lookupJ (mergeObj false [("a", JSONValue.num 1)] [("b", JSONValue.null)]) "a"
        = lookupJ [("a", JSONValue.num 1)] "a"
    ∧ lookupJ (mergeObj false [("a", JSONValue.num 1)] [("a", JSONValue.null)]) "a"
        = some (JSONValue.num 1) :=
  ⟨metadataMergePreservesValues.1 [("a", JSONValue.num 1)] [("b", JSONValue.null)]
      false "a" rfl,
   metadataMergePreservesValues.2.1 [("a", JSONValue.num 1)] [("a", JSONValue.null)]
      "a" (JSONValue.num 1) JSONValue.null (by simp) rfl rfl rfl rfl⟩

/-! ### C6: predicate-compiler lemmas -/

theorem parseJSONQuery_eq (qb : WhereItems) (p : String)
    (a o : List JSONQuery) (b : Bool) :
    parseJSONQuery qb (.mk p a o) b = qb
      ++ (if p ≠ "" then
            [((if b then Sep.sor else Sep.sand),
              WExpr.atom (.jsonbPathExists (normalizeJSONPath p)))] else [])
      ++ (if a.isEmpty then []
          else [(Sep.sand, WExpr.group (parseJSONList [] a false))])
      ++ (if o.isEmpty then []
          else [(Sep.sand, WExpr.group (parseJSONList [] o true))]) := by
  unfold parseJSONQuery
  by_cases hp : p ≠ "" <;> by_cases ha : a.isEmpty <;> by_cases ho : o.isEmpty <;>
    simp [hp, ha, ho]

theorem parseJSONQuery_append (qb : WhereItems) (jq : JSONQuery) (b : Bool) :
    parseJSONQuery qb jq b = qb ++ parseJSONQuery [] jq b := by
  cases jq with
  | mk p a o =>
    rw [parseJSONQuery_eq, parseJSONQuery_eq]
    simp

theorem parseJSONList_append (l : List JSONQuery) (b : Bool) :
    ∀ qb : WhereItems, parseJSONList qb l b = qb ++ parseJSONList [] l b := by
  induction l with
  | nil =>
    intro qb
    simp [parseJSONList]
  | cons j rest ih =>
    intro qb
    rw [parseJSONList, parseJSONList, ih (parseJSONQuery qb j b),
      ih (parseJSONQuery [] j b), parseJSONQuery_append qb j b]
    simp

theorem itemsAllAnd_append {l₁ l₂ : WhereItems}
    (h₁ : itemsAllAnd l₁) (h₂ : itemsAllAnd l₂) : itemsAllAnd (l₁ ++ l₂) := by
  intro it hit
  rcases List.mem_append.mp hit with h | h
  · exact h₁ it h
  · exact h₂ it h

theorem itemsAllAnd_nil : itemsAllAnd [] := by
  intro it hit
  simp at hit

theorem itemsAllAnd_ite_sand {c : Prop} [Decidable c] (e : WExpr) :
    itemsAllAnd (if c then [] else [(Sep.sand, e)]) := by
  intro it hit
  split at hit
  · simp at hit
  · simp at hit
    rw [hit]

mutual

theorem itemsAllAnd_parse_false (jq : JSONQuery) :
    itemsAllAnd (parseJSONQuery [] jq false) := by
  cases jq with
  | mk p a o =>
    rw [parseJSONQuery_eq]
    refine itemsAllAnd_append (itemsAllAnd_append (itemsAllAnd_append
      itemsAllAnd_nil ?_) (itemsAllAnd_ite_sand _)) (itemsAllAnd_ite_sand _)
    intro it hit
    split at hit
    · simp at hit
      rw [hit]
    · simp at hit

theorem itemsAllAnd_parseList_false (l : List JSONQuery) :
    itemsAllAnd (parseJSONList [] l false) := by
  cases l with
  | nil => exact itemsAllAnd_nil
  | cons j rest =>
    rw [parseJSONList, parseJSONList_append]
    exact itemsAllAnd_append (itemsAllAnd_parse_false j)
      (itemsAllAnd_parseList_false rest)

end

theorem evalItemsAux_allAnd (r : Row) :
    ∀ items : WhereItems, itemsAllAnd items → ∀ oA aA : Bool,
      evalItemsAux r oA aA items
        = (oA || (aA && items.all (fun it => evalExpr r it.2))) := by
  intro items
  induction items with
  | nil =>
    intro _ oA aA
    simp [evalItemsAux]
  | cons it rest ih =>
    intro h oA aA
    obtain ⟨s, e⟩ := it
    have hs : s = Sep.sand := h (s, e) (List.mem_cons_self _ _)
    subst hs
    simp only [evalItemsAux]
    rw [ih (fun x hx => h x (List.mem_cons_of_mem _ hx)) oA (aA && evalExpr r e)]
    simp [Bool.and_assoc]

theorem evalItems_allAnd (r : Row) (items : WhereItems) (h : itemsAllAnd items) :
    evalItems r items = items.all (fun it => evalExpr r it.2) := by
  cases items with
  | nil => rfl
  | cons it rest =>
    obtain ⟨s, e⟩ := it
    simp only [evalItems]
    rw [evalItemsAux_allAnd r rest (fun x hx => h x (List.mem_cons_of_mem _ hx))
      false (evalExpr r e)]
    simp

theorem all_parseList_false (r : Row) (l : List JSONQuery) :
    (parseJSONList [] l false).all (fun it => evalExpr r it.2)
      = l.all (fun c => matchesTree r c) := by
  induction l with
  | nil => rfl
  | cons j rest ih =>
    rw [parseJSONList, parseJSONList_append, List.all_append, ih, List.all_cons]
    congr 1
    rw [← evalItems_allAnd r _ (itemsAllAnd_parse_false j)]
    rfl

theorem evalItems_parseList_false (r : Row) (l : List JSONQuery) :
    evalItems r (parseJSONList [] l false) = l.all (fun c => matchesTree r c) := by
  rw [evalItems_allAnd r _ (itemsAllAnd_parseList_false l), all_parseList_false]

theorem matchesTree_structure (r : Row) (p : String) (a o : List JSONQuery) :
    matchesTree r (.mk p a o)
      = ((if p ≠ "" then r.meta (normalizeJSONPath p) else true)
         && (if a.isEmpty then true else evalItems r (parseJSONList [] a false))
         && (if o.isEmpty then true else evalItems r (parseJSONList [] o true))) := by
  unfold matchesTree compileTree
  rw [evalItems_allAnd r _ (itemsAllAnd_parse_false _), parseJSONQuery_eq]
  by_cases hp : p ≠ "" <;> by_cases ha : a.isEmpty <;> by_cases ho : o.isEmpty <;>
    simp [hp, ha, ho, evalExpr, evalCond, Bool.and_assoc,
      evalItems_allAnd r _ (itemsAllAnd_parseList_false a),
      evalItems_allAnd r _ (itemsAllAnd_parseList_false o)]

theorem parse_false_true_relation (p : String) (a o : List JSONQuery)
    (hp : p ≠ "") :
    ∃ G : WhereItems, itemsAllAnd G
      ∧ parseJSONQuery [] (.mk p a o) false
          = (Sep.sand, WExpr.atom (.jsonbPathExists (normalizeJSONPath p))) :: G
      ∧ parseJSONQuery [] (.mk p a o) true
          = (Sep.sor, WExpr.atom (.jsonbPathExists (normalizeJSONPath p))) :: G := by
  refine ⟨(if a.isEmpty then []
        else [(Sep.sand, WExpr.group (parseJSONList [] a false))])
      ++ (if o.isEmpty then []
        else [(Sep.sand, WExpr.group (parseJSONList [] o true))]),
    itemsAllAnd_append (itemsAllAnd_ite_sand _) (itemsAllAnd_ite_sand _), ?_, ?_⟩
  · rw [parseJSONQuery_eq]
    simp [hp]
  · rw [parseJSONQuery_eq]
    simp [hp]

theorem evalItemsAux_append_allAnd (r : Row) :
    ∀ pre : WhereItems, itemsAllAnd pre → ∀ (more : WhereItems) (oA aA : Bool),
      evalItemsAux r oA aA (pre ++ more)
        = evalItemsAux r oA (aA && pre.all (fun it => evalExpr r it.2)) more := by
  intro pre
  induction pre with
  | nil =>
    intro _ more oA aA
    simp
  | cons it rest ih =>
    intro h more oA aA
    obtain ⟨s, e⟩ := it
    have hs : s = Sep.sand := h (s, e) (List.mem_cons_self _ _)
    subst hs
    rw [List.cons_append]
    simp only [evalItemsAux]
    rw [ih (fun x hx => h x (List.mem_cons_of_mem _ hx)) more oA (aA && evalExpr r e)]
    simp [Bool.and_assoc]

theorem matchesTree_of_leaf (r : Row) (p : String) (a o : List JSONQuery)
    {G : WhereItems} (hG : itemsAllAnd G)
    (hfalse : parseJSONQuery [] (.mk p a o) false
      = (Sep.sand, WExpr.atom (.jsonbPathExists (normalizeJSONPath p))) :: G) :
    matchesTree r (.mk p a o)
      = (evalCond r (.jsonbPathExists (normalizeJSONPath p))
          && G.all (fun it => evalExpr r it.2)) := by
  unfold matchesTree compileTree
  rw [hfalse]
  simp only [evalItems]
  rw [evalItemsAux_allAnd r G hG]
  simp [evalExpr]

theorem evalItemsAux_parseList_true (r : Row) :
    ∀ l : List JSONQuery, (∀ c ∈ l, c.jsonPath ≠ "") → ∀ oA aA : Bool,
      evalItemsAux r oA aA (parseJSONList [] l true)
        = (oA || aA || l.any (fun c => matchesTree r c)) := by
  intro l
  induction l with
  | nil =>
    intro _ oA aA
    simp [parseJSONList, evalItemsAux]
  | cons j rest ih =>
    intro h oA aA
    rw [parseJSONList, parseJSONList_append]
    cases j with
    | mk p a o =>
      have hp : p ≠ "" := h _ (List.mem_cons_self _ _)
      obtain ⟨G, hG, hfalse, htrue⟩ := parse_false_true_relation p a o hp
      rw [htrue, List.cons_append]
      simp only [evalItemsAux]
      rw [evalItemsAux_append_allAnd r G hG]
      rw [ih (fun c hc => h c (List.mem_cons_of_mem _ hc))]
      rw [List.any_cons]
      rw [matchesTree_of_leaf r p a o hG hfalse]
      simp [evalExpr, Bool.or_assoc]

theorem evalItems_parseList_true (r : Row) (l : List JSONQuery)
    (hne : l ≠ []) (h : ∀ c ∈ l, c.jsonPath ≠ "") :
    evalItems r (parseJSONList [] l true) = l.any (fun c => matchesTree r c) := by
  cases l with
  | nil => exact absurd rfl hne
  | cons j rest =>
    rw [parseJSONList, parseJSONList_append]
    cases j with
    | mk p a o =>
      have hp : p ≠ "" := h _ (List.mem_cons_self _ _)
      obtain ⟨G, hG, hfalse, htrue⟩ := parse_false_true_relation p a o hp
      rw [htrue, List.cons_append]
      simp only [evalItems]
      rw [evalItemsAux_append_allAnd r G hG]
      rw [evalItemsAux_parseList_true r rest (fun c hc => h c (List.mem_cons_of_mem _ hc))]
      rw [List.any_cons]
      rw [matchesTree_of_leaf r p a o hG hfalse]
      simp [evalExpr, Bool.or_assoc]

/-- C6 counterexample: for the Or-only tree
`Or = [leaf "pa", {And = [leaf "pc"]}]` and a record whose metadata matches
path `pa` but not `pc`, the union of the children's matches is `true` but
the compiled predicate evaluates to `false`: an Or-child without its own
leaf condition is appended with an `AND` separator, so its group conjoins
with the preceding disjunct instead of forming a new one. -/
theorem orOnlyTreeNotUnion :
    matchesTree
        { uuid := 0, sessionId := "", createdAt := 0, deletedAt := none,
          meta := fun p => p == "pa", embedding := [] }
        (.mk "" [] [.mk "pa" [] [], .mk "" [.mk "pc" [] []] []]) = false
    ∧ ([JSONQuery.mk "pa" [] [], JSONQuery.mk "" [JSONQuery.mk "pc" [] []] []].any
        (fun c => matchesTree
          { uuid := 0, sessionId := "", createdAt := 0, deletedAt := none,
            meta := fun p => p == "pa", embedding := [] } c)) = true := by
  constructor <;> rfl

/-- C6 (amended): an empty tree compiles to a predicate matching every
record; an And-only tree matches the intersection of what its children
individually match; an Or-only tree whose children each carry their own
leaf condition matches the union of what its children individually match;
and a node's own leaf condition, its And group and its Or group are
conjoined with each other. -/
theorem predicateTreeCompilation :
    (∀ r : Row, matchesTree r (.mk "" [] []) = true)
    ∧ (∀ (r : Row) (a : List JSONQuery),
        matchesTree r (.mk "" a []) = a.all (fun c => matchesTree r c))
    ∧ (∀ (r : Row) (o : List JSONQuery), o ≠ [] → (∀ c ∈ o, c.jsonPath ≠ "") →
        matchesTree r (.mk "" [] o) = o.any (fun c => matchesTree r c))
    ∧ (∀ (r : Row) (p : String) (a o : List JSONQuery),
        matchesTree r (.mk p a o)
          = ((if p ≠ "" then r.meta (normalizeJSONPath p) else true)
             && matchesTree r (.mk "" a []) && matchesTree r (.mk "" [] o))) := by
  have hAndTree : ∀ (r : Row) (a : List JSONQuery),
      matchesTree r (.mk "" a []) = a.all (fun c => matchesTree r c) := by
    intro r a
    rw [matchesTree_structure]
    rcases ha : a.isEmpty with _ | _
    · simp [ha, evalItems_parseList_false]
    · rw [List.isEmpty_iff] at ha
      simp [ha]
  have hOrGroup : ∀ (r : Row) (o : List JSONQuery),
      matchesTree r (.mk "" [] o)
        = (if o.isEmpty then true else evalItems r (parseJSONList [] o true)) := by
    intro r o
    rw [matchesTree_structure]
    simp
  refine ⟨fun r => rfl, hAndTree, ?_, ?_⟩
  · intro r o hne h
    rw [hOrGroup]
    have ho : o.isEmpty = false := by
      simpa [List.isEmpty_iff] using hne
    simp only [ho, Bool.false_eq_true, if_false]
    exact evalItems_parseList_true r o hne h
  · intro r p a o
    rw [matchesTree_structure, hAndTree, hOrGroup]
    by_cases ha : a.isEmpty
    · have h0 : a = [] := List.isEmpty_iff.mp ha
      subst h0
      simp
    · simp [ha, evalItems_parseList_false]

theorem predicateTreeCompilationWitness :
    matchesTree
        { uuid := 0, sessionId := "", createdAt := 0, deletedAt := none,
          meta := fun p => p == "pa", embedding := [] }
        (.mk "" [] [.mk "pa" [] [], .mk "pb" [] []])
      = ([JSONQuery.mk "pa" [] [], JSONQuery.mk "pb" [] []].any
          (fun c => matchesTree
            { uuid := 0, sessionId := "", createdAt := 0, deletedAt := none,
              meta := fun p => p == "pa", embedding := [] } c)) :=
  predicateTreeCompilation.2.2.1
    { uuid := 0, sessionId := "", createdAt := 0, deletedAt := none,
      meta := fun p => p == "pa", embedding := [] }
    [JSONQuery.mk "pa" [] [], JSONQuery.mk "pb" [] []]
    (by simp)
    (by
      intro c hc
      simp only [List.mem_cons, List.not_mem_nil, or_false] at hc
      rcases hc with hc | hc <;> (subst hc; decide))

/-! ### C8: ordering -/

/-- C8 counterexample: a document search without query text gets no ORDER BY
clause at all — `buildQuery` only orders by `dist ASC` for text queries, so
there is no recency fallback for documents. -/
theorem docNoRecencyOrderCounterexample :
    (buildQuery (fun _ => [(1 : ℝ)])
        (newDocumentSearchOperation
          ⟨"", [("where", MetaVal.whereClause (JSONQuery.mk "pa" [] []))]⟩
          5 false)).map DocQuery.order = .ok none
    ∧ (buildQuery (fun _ => [(1 : ℝ)])
        (newDocumentSearchOperation
          ⟨"", [("where", MetaVal.whereClause (JSONQuery.mk "pa" [] []))]⟩
          5 false)).map DocQuery.order ≠ .ok (some QOrder.createdDesc) := by
  have h : (buildQuery (fun _ => [(1 : ℝ)])
      (newDocumentSearchOperation
        ⟨"", [("where", MetaVal.whereClause (JSONQuery.mk "pa" [] []))]⟩
        5 false)).map DocQuery.order = .ok none := rfl
  refine ⟨h, ?_⟩
  rw [h]
  intro hc
  simp at hc

/-- C8 (amended): with query text both message and document searches order
by `dist ASC`; without query text, message searches order by
`m.created_at DESC` while document searches set no ORDER BY clause. -/
theorem searchOrderingPolicy :
    (∀ (f : String → List ℚ) (payload : MemorySearchPayload) (sid : String)
        (lim : Int) (tr : List Effect) (q : MsgQuery),
      searchMessagesQuery f (some payload) sid lim = (tr, .ok q) →
        ((payload.text ≠ "" → q.order = some QOrder.distAsc)
          ∧ (payload.text = "" → q.order = some QOrder.createdDesc)))
    ∧ (∀ (f : String → List ℝ) (dso : DocumentSearchOperation) (q : DocQuery),
      buildQuery f dso = .ok q →
        ((dso.searchPayload.text ≠ "" → q.order = some QOrder.distAsc)
          ∧ (dso.searchPayload.text = "" → q.order = none))) := by
  constructor
  · intro f payload sid lim tr q h
    rw [searchMessagesQuery_some] at h
    rcases hguard : (payload.text == "" && payload.metadata.isEmpty) with _ | _
    · rw [hguard] at h
      simp only [Bool.false_eq_true, if_false] at h
      rcases hf : (if payload.metadata.isEmpty then
            Except.ok (buildMessagesSelectQuery f payload).2
          else applyMessagesMetadataFilter (buildMessagesSelectQuery f payload).2
            payload.metadata)
        with e | q₀
      · rw [hf] at h
        simp at h
      · rw [hf] at h
        simp only [Prod.mk.injEq, Except.ok.injEq] at h
        have hq : q.order = (addMessagesSortQuery payload.text
            (addWhereCond (addWhereCond q₀ (.sessionEq sid)) .notDeleted)).order := by
          rw [← h.2]
        constructor
        · intro ht
          rw [hq]
          simp [addMessagesSortQuery, ht]
        · intro ht
          rw [hq]
          simp [addMessagesSortQuery, ht]
    · rw [hguard] at h
      simp at h
  · intro f dso q h
    unfold buildQuery at h
    rcases hf : (if dso.searchPayload.metadata.isEmpty then .ok ([] : WhereItems)
        else applyDocsMetadataFilter [] dso.searchPayload.metadata) with e | items
    · rw [hf] at h
      simp at h
    · rw [hf] at h
      simp only [Except.ok.injEq] at h
      constructor
      · intro ht
        rw [← h]
        simp [ht]
      · intro ht
        rw [← h]
        simp [ht]

theorem searchOrderingWitness :
    ({ distQv := some ([] : List ℚ),
       whereItems := [(Sep.sand, .atom (.sessionEq "s")), (Sep.sand, .atom .notDeleted)],
       order := some QOrder.distAsc, limit := 3 } : MsgQuery).order
        = some QOrder.distAsc
    ∧ ({ distQv := none,
         whereItems := [(Sep.sand,
           .atom (.jsonbPathExists (normalizeJSONPath "pa")))],
         order := none, limit := 5 } : DocQuery).order = none :=
  ⟨(searchOrderingPolicy.1 (fun _ => []) ⟨"hi", []⟩ "s" 3 [Effect.embedCall] _ rfl).1
      (by decide),
   (searchOrderingPolicy.2 (fun _ => [(1 : ℝ)])
      (newDocumentSearchOperation
        ⟨"", [("where", MetaVal.whereClause (JSONQuery.mk "pa" [] []))]⟩ 5 false)
      _ rfl).2 rfl⟩

/-! ### C9: soft-delete exclusion -/

theorem itemsAllAnd_single (e : WExpr) : itemsAllAnd [(Sep.sand, e)] := by
  intro it hit
  simp at hit
  rw [hit]

theorem itemsAllAnd_dateFilters (items : WhereItems)
    (m : List (String × MetaVal)) (h : itemsAllAnd items) :
    itemsAllAnd (addMessageDateFilters items m) := by
  unfold addMessageDateFilters
  rcases lookupMeta m "start_date" with _ | v <;>
    rcases lookupMeta m "end_date" with _ | w <;>
    simp only <;>
    first
      | exact h
      | exact itemsAllAnd_append h (itemsAllAnd_single _)
      | exact itemsAllAnd_append (itemsAllAnd_append h (itemsAllAnd_single _))
          (itemsAllAnd_single _)

theorem itemsAllAnd_applyFilter (q : MsgQuery) (m : List (String × MetaVal))
    (q₂ : MsgQuery) (h : itemsAllAnd q.whereItems)
    (happ : applyMessagesMetadataFilter q m = .ok q₂) :
    itemsAllAnd q₂.whereItems := by
  unfold applyMessagesMetadataFilter at happ
  rcases hw : lookupMeta m "where" with _ | v
  · rw [hw] at happ
    simp only [Except.ok.injEq] at happ
    rw [← happ]
    exact itemsAllAnd_dateFilters _ m h
  · rw [hw] at happ
    cases v with
    | whereClause jq =>
      simp only [Except.ok.injEq] at happ
      rw [← happ]
      refine itemsAllAnd_dateFilters _ m ?_
      rw [parseJSONQuery_append]
      exact itemsAllAnd_append h (itemsAllAnd_parse_false jq)
    | dateVal t => simp at happ

theorem buildMessagesSelectQuery_whereItems (f : String → List ℚ)
    (payload : MemorySearchPayload) :
    (buildMessagesSelectQuery f payload).2.whereItems = [] := by
  unfold buildMessagesSelectQuery
  split <;> rfl

theorem execMessages_passes (table : List Row) (q : MsgQuery) (r : Row)
    (h : r ∈ execMessages table q) : evalItems r q.whereItems = true := by
  simp only [execMessages] at h
  have h₂ : r ∈ (match q.order with
      | none => table.filter (fun r => evalItems r q.whereItems)
      | some o => (table.filter (fun r => evalItems r q.whereItems)).mergeSort
          (fun r₁ r₂ => msgRowLe q o r₁ r₂)) := by
    split at h
    · exact List.mem_of_mem_take h
    · exact h
  have h₃ : r ∈ table.filter (fun r => evalItems r q.whereItems) := by
    rcases ho : q.order with _ | o
    · rw [ho] at h₂
      exact h₂
    · rw [ho] at h₂
      exact (List.mergeSort_perm _ _).mem_iff.mp h₂
  exact (List.mem_filter.mp h₃).2

theorem evalItems_all_mem (r : Row) (items : WhereItems)
    (hAll : itemsAllAnd items) (htrue : evalItems r items = true)
    (it : Sep × WExpr) (hit : it ∈ items) : evalExpr r it.2 = true := by
  rw [evalItems_allAnd r items hAll] at htrue
  exact List.all_eq_true.mp htrue it hit

/-- C9: neither message nor document searches return soft-deleted rows: the
message query always carries the `m.deleted_at IS NULL` condition, and
document reads exclude rows with a delete marker (the latter modelled from
the spec, see `execDocuments`). -/
theorem softDeletedExcluded :
    (∀ (f : String → List ℚ) (payload : MemorySearchPayload) (sid : String)
        (lim : Int) (tr : List Effect) (q : MsgQuery),
      searchMessagesQuery f (some payload) sid lim = (tr, .ok q) →
      ∀ (table : List Row) (r : Row), r ∈ execMessages table q →
        r.deletedAt = none)
    ∧ (∀ (f : String → List ℝ) (dso : DocumentSearchOperation) (q : DocQuery),
      buildQuery f dso = .ok q →
      ∀ (table : List Row) (r : Row), r ∈ execDocuments table q →
        r.deletedAt = none) := by
  constructor
  · intro f payload sid lim tr q h table r hr
    rw [searchMessagesQuery_some] at h
    rcases hguard : (payload.text == "" && payload.metadata.isEmpty) with _ | _
    · rw [hguard] at h
      simp only [Bool.false_eq_true, if_false] at h
      rcases hf : (if payload.metadata.isEmpty then
            Except.ok (buildMessagesSelectQuery f payload).2
          else applyMessagesMetadataFilter (buildMessagesSelectQuery f payload).2
            payload.metadata)
        with e | q₀
      · rw [hf] at h
        simp at h
      · rw [hf] at h
        simp only [Prod.mk.injEq, Except.ok.injEq] at h
        have hAll₀ : itemsAllAnd q₀.whereItems := by
          rcases hm : payload.metadata.isEmpty with _ | _
          · rw [hm] at hf
            simp only [Bool.false_eq_true, if_false] at hf
            refine itemsAllAnd_applyFilter _ payload.metadata q₀ ?_ hf
            rw [buildMessagesSelectQuery_whereItems]
            exact itemsAllAnd_nil
          · rw [hm] at hf
            simp only [if_true] at hf
            have hq₀ : q₀ = (buildMessagesSelectQuery f payload).2 := by
              injection hf.symm
            rw [hq₀, buildMessagesSelectQuery_whereItems]
            exact itemsAllAnd_nil
        have hwhere : q.whereItems
            = (q₀.whereItems ++ [(Sep.sand, .atom (.sessionEq sid))])
              ++ [(Sep.sand, .atom .notDeleted)] := by
          rw [← h.2]
          unfold addMessagesSortQuery
          split <;> rfl
        have hAll : itemsAllAnd q.whereItems := by
          rw [hwhere]
          exact itemsAllAnd_append
            (itemsAllAnd_append hAll₀ (itemsAllAnd_single _)) (itemsAllAnd_single _)
        have hmem : (Sep.sand, WExpr.atom Cond.notDeleted) ∈ q.whereItems := by
          rw [hwhere]
          simp
        have hpass := execMessages_passes table q r hr
        have := evalItems_all_mem r q.whereItems hAll hpass _ hmem
        simp only [evalExpr, evalCond] at this
        exact Option.isNone_iff_eq_none.mp this
    · rw [hguard] at h
      simp at h
  · intro f dso q h table r hr
    simp only [execDocuments] at hr
    have h₂ : r ∈ table.filter
        (fun r => evalItems r q.whereItems && r.deletedAt.isNone) := by
      split at hr
      · exact List.mem_of_mem_take hr
      · exact hr
    have hp := (List.mem_filter.mp h₂).2
    simp only [Bool.and_eq_true] at hp
    exact Option.isNone_iff_eq_none.mp hp.2

theorem softDeletedWitness :
    ({ uuid := 1, sessionId := "s", createdAt := 0, deletedAt := none,
       meta := fun _ => false, embedding := [] } : Row).deletedAt = none :=
  softDeletedExcluded.1 (fun _ => []) ⟨"hi", []⟩ "s" 3 [Effect.embedCall]
    { distQv := some [],
      whereItems := [(Sep.sand, .atom (.sessionEq "s")),
        (Sep.sand, .atom .notDeleted)],
      order := some QOrder.distAsc, limit := 3 } rfl
    [{ uuid := 1, sessionId := "s", createdAt := 0, deletedAt := none,
       meta := fun _ => false, embedding := [] }]
    { uuid := 1, sessionId := "s", createdAt := 0, deletedAt := none,
      meta := fun _ => false, embedding := [] }
    (by
      have hex : execMessages
          [{ uuid := 1, sessionId := "s", createdAt := 0, deletedAt := none,
             meta := fun _ => false, embedding := [] }]
          { distQv := some [],
            whereItems := [(Sep.sand, .atom (.sessionEq "s")),
              (Sep.sand, .atom .notDeleted)],
            order := some QOrder.distAsc, limit := 3 }
          = [{ uuid := 1, sessionId := "s", createdAt := 0, deletedAt := none,
               meta := fun _ => false, embedding := [] }] := by
        simp only [execMessages]
        rw [show (List.filter
            (fun r => evalItems r [(Sep.sand, WExpr.atom (Cond.sessionEq "s")),
              (Sep.sand, WExpr.atom Cond.notDeleted)])
            [{ uuid := 1, sessionId := "s", createdAt := 0, deletedAt := none,
               meta := fun _ => false, embedding := [] }])
          = [{ uuid := 1, sessionId := "s", createdAt := 0, deletedAt := none,
               meta := fun _ => false, embedding := [] }] from rfl]
        rw [List.mergeSort_singleton]
        rfl
      rw [hex]
      exact List.mem_singleton.mpr rfl)

end Zep
